import Mathlib

/-!
Verification of the remote synchronization engine of the quick-notes
extension (`src/sync/GitHubSyncManager.js`), shallowly embedded in Lean.

JS objects are modelled as Lean structures; JS `Map` (insertion-ordered,
identity-keyed) is modelled as an association list with `mapSet`/`mapGet`
reproducing `Map.set`/`Map.get` semantics; absent values (`null`/
`undefined`) are `Option`; ISO-8601 timestamps are compared through
`Date.getTime`, modelled as `Nat` milliseconds.
-/

namespace QuickNotes

/-- A note, as produced by `NotesDataManager.addNote`:
`{ id, content, priority, completed, createdAt, updatedAt }`.
`updatedAt` is `Option` because the merge code guards `note.updatedAt ||
note.createdAt`. -/
structure Note where
  id : String
  content : String
  priority : String
  completed : Bool
  createdAt : Nat
  updatedAt : Option Nat
deriving DecidableEq, Repr

/-- A project (`ensureProject` / archive): scalar metadata plus its notes.
`archivedAt` is `none` for active projects. -/
structure Project where
  id : String
  name : String
  path : String
  icon : String
  color : String
  notes : List Note
  createdAt : Nat
  archivedAt : Option Nat
deriving DecidableEq, Repr

/-- The root snapshot. `extra` stands for any further top-level fields a
snapshot object may carry besides the three the merge rebuilds; `version`
uses `""` for the falsy (absent or empty) case. -/
structure Snapshot where
  version : String
  projects : List (String × Project)
  archivedProjects : List (String × Project)
  extra : List (String × String)
deriving DecidableEq, Repr

/-- `Map.get` on an insertion-ordered map. -/
def mapGet {α : Type} (m : List (String × α)) (k : String) : Option α :=
  (m.find? (fun p => p.1 = k)).map (·.2)

/-- `Map.set`: replace in place if the key exists, else append. -/
def mapSet {α : Type} (m : List (String × α)) (k : String) (v : α) :
    List (String × α) :=
  if m.any (fun p => p.1 = k) then
    m.map (fun p => if p.1 = k then (k, v) else p)
  else m ++ [(k, v)]

/-- `Object.keys`. -/
def keys {α : Type} (m : List (String × α)) : List String := m.map (·.1)

/-- One insertion into a JS `Set`: keep the first occurrence. -/
def jsInsert (acc : List String) (k : String) : List String :=
  if acc.contains k then acc else acc ++ [k]

/-- `new Set(l)` iterated in insertion order. -/
def jsDedup (l : List String) : List String := l.foldl jsInsert []

/-- `new Set([...a, ...b])` iterated in insertion order. -/
def jsSetUnion (a b : List String) : List String := jsDedup (a ++ b)

/-- `new Date(note.updatedAt || note.createdAt).getTime()`. -/
def noteTime (n : Note) : Nat := n.updatedAt.getD n.createdAt

/-- One iteration of the local-notes loop of `_mergeNotes`: insert the
local note if no entry with its id exists, else replace the entry when
`localTime >= remoteTime`. -/
def noteStep (m : List (String × Note)) (n : Note) :
    List (String × Note) :=
  match mapGet m n.id with
  | none => mapSet m n.id n
  | some existing =>
      if noteTime existing ≤ noteTime n then mapSet m n.id n else m

/-- The `noteMap` of `_mergeNotes` after both loops: remote notes are
inserted first, then each local note is processed by `noteStep`. -/
def mergeNotesMap (localNotes remoteNotes : List Note) :
    List (String × Note) :=
  localNotes.foldl noteStep
    (remoteNotes.foldl (fun m n => mapSet m n.id n) [])

/-- `GitHubSyncManager._mergeNotes`: build a `Map` from the remote notes,
then for each local note insert it if absent, or replace the existing
entry when `localTime >= remoteTime`; return `Array.from(map.values())`. -/
def mergeNotes (localNotes remoteNotes : List Note) : List Note :=
  (mergeNotesMap localNotes remoteNotes).map (·.2)

/-- The project-map merge loop of `mergeData` (the same loop is run on
`projects` and on `archivedProjects`): iterate over the union of the key
sets; when both sides have the project, `{...remote, ...local, notes:
mergeNotes(...)}` keeps every non-`notes` field from local; otherwise
`localProject || remoteProject`. -/
def mergeProjects (lp rp : List (String × Project)) :
    List (String × Project) :=
  (jsSetUnion (keys lp) (keys rp)).filterMap (fun id =>
    match mapGet lp id, mapGet rp id with
    | some l, some r =>
        some (id, { l with notes := mergeNotes l.notes r.notes })
    | some l, none => some (id, l)
    | none, some r => some (id, r)
    | none, none => none)

/-- JS `||` on strings (only `""` is falsy here). -/
def jsOr (a b : String) : String := if a = "" then b else a

/-- The body of `mergeData` when both snapshots are present. -/
def mergeCore (l r : Snapshot) : Snapshot :=
  { version := jsOr l.version (jsOr r.version "1.0.0")
    projects := mergeProjects l.projects r.projects
    archivedProjects :=
      mergeProjects l.archivedProjects r.archivedProjects
    extra := [] }

/-- `GitHubSyncManager.mergeData`, guards included:
`if (!remoteData) return localData; if (!localData) return remoteData;`. -/
def mergeData : Option Snapshot → Option Snapshot → Option Snapshot
  | l, none => l
  | none, some r => some r
  | some l, some r => some (mergeCore l r)

/-- Well-formed note list: ids are unique (spec §3: note ids are globally
unique). -/
def notesWF (ns : List Note) : Prop := (ns.map (·.id)).Nodup

/-- Well-formed project map: unique keys, well-formed note lists. -/
def projMapWF (m : List (String × Project)) : Prop :=
  (keys m).Nodup ∧ ∀ p ∈ m, notesWF p.2.notes

/-- Well-formed snapshot per the spec data model: a truthy version string,
no stray top-level fields, and well-formed project maps. -/
def snapWF (s : Snapshot) : Prop :=
  s.version ≠ "" ∧ s.extra = [] ∧ projMapWF s.projects ∧
    projMapWF s.archivedProjects

instance (ns : List Note) : Decidable (notesWF ns) := by
  unfold notesWF; infer_instance

instance (m : List (String × Project)) : Decidable (projMapWF m) := by
  unfold projMapWF; infer_instance

instance (s : Snapshot) : Decidable (snapWF s) := by
  unfold snapWF; infer_instance

/-- All notes of a snapshot: the notes of every project, active and
archived (order irrelevant for the set-level properties below). -/
def snapNotes (s : Snapshot) : List Note :=
  ((s.projects ++ s.archivedProjects).map (fun p => p.2.notes)).flatten

/-! Concrete sample data used to exercise the theorems below. -/

def noteLoc : Note :=
  { id := "n1", content := "local text", priority := "medium",
    completed := false, createdAt := 10, updatedAt := some 20 }

def noteRem : Note :=
  { id := "n1", content := "remote text", priority := "high",
    completed := true, createdAt := 10, updatedAt := some 30 }

def noteTie : Note :=
  { id := "n1", content := "other text", priority := "low",
    completed := true, createdAt := 10, updatedAt := some 20 }

def noteB2 : Note :=
  { id := "n2", content := "second", priority := "low",
    completed := false, createdAt := 15, updatedAt := some 15 }

def projA : Project :=
  { id := "p1", name := "Alpha", path := "/a", icon := "folder",
    color := "blue", notes := [noteLoc], createdAt := 5,
    archivedAt := none }

def projB : Project :=
  { id := "p2", name := "Beta", path := "/b", icon := "file",
    color := "red", notes := [noteB2], createdAt := 6,
    archivedAt := none }

def snapA : Snapshot :=
  { version := "1.0.0", projects := [("p1", projA)],
    archivedProjects := [], extra := [] }

def snapB : Snapshot :=
  { version := "2.0.0", projects := [("p2", projB)],
    archivedProjects := [], extra := [] }

/-! ### Sync orchestration model (`pull`, `push`, `sync`) -/

/-- Outcome of one `pull()` call: a thrown error (message), a 404
(`notFound` — the file does not exist yet, not an error), or the parsed
remote data together with the file's sha. -/
inductive PullRes where
  | err (msg : String)
  | notFound
  | found (data : Snapshot) (sha : String)
deriving DecidableEq, Repr

/-- Outcome of one `push()` call: success, a 409 (the thrown error gets
`isConflict = true`), or any other failure. -/
inductive PushRes where
  | ok
  | conflict
  | failure (msg : String)
deriving DecidableEq, Repr

/-- Error surfaced to the caller of `sync`. -/
inductive SyncErr where
  | pullFail (msg : String)
  | conflict
  | pushFail (msg : String)
deriving DecidableEq, Repr

/-- The store behaviour one run of `sync` can observe: the results of
its at most two pulls and two pushes. -/
structure StoreEnv where
  pull1 : PullRes
  push1 : PushRes
  pull2 : PullRes
  push2 : PushRes
deriving DecidableEq, Repr

/-- `pull`'s effect on `this.fileSha`: cleared on 404, set to the
file's sha on success, untouched when the request throws. -/
def pullShaAfter (pr : PullRes) (cur : Option String) : Option String :=
  match pr with
  | .err _ => cur
  | .notFound => none
  | .found _ s => some s

/-- `pull`'s return value: `null` on 404, the parsed snapshot on
success. -/
def pullReturn : PullRes → Except String (Option Snapshot)
  | .err m => .error m
  | .notFound => .ok none
  | .found d _ => .ok (some d)

/-- The `sha` field of the push request body:
`if (this.fileSha) body.sha = this.fileSha` (only a truthy sha is
sent). -/
def pushBodySha (fileSha : Option String) : Option String :=
  match fileSha with
  | some s => if s = "" then none else some s
  | none => none

/-- Translate a push outcome into `sync`'s result for that attempt. -/
def pushOutcome (po : PushRes) (merged : Option Snapshot) :
    Except SyncErr (Option Snapshot) :=
  match po with
  | .ok => .ok merged
  | .conflict => .error SyncErr.conflict
  | .failure m => .error (.pushFail m)

/-- One pull-merge-push cycle of `sync`. The second component records
the `body.sha` of each push request actually issued (none when the pull
threw, since `push` is then never reached). -/
def runAttempt (pr : PullRes) (po : PushRes)
    (localData : Option Snapshot) :
    Except SyncErr (Option Snapshot) × List (Option String) :=
  match pr with
  | .err m => (.error (.pullFail m), [])
  | .notFound =>
      (pushOutcome po (mergeData localData none), [pushBodySha none])
  | .found d s =>
      (pushOutcome po (mergeData localData (some d)),
        [pushBodySha (some s)])

/-- `GitHubSyncManager.sync`: pull, merge, push and return the merged
data; if the push threw with `isConflict`, run exactly one more
pull-merge-push cycle (new remote, new sha) and return its outcome;
every other error is rethrown. -/
def syncRun (env : StoreEnv) (localData : Option Snapshot) :
    Except SyncErr (Option Snapshot) × List (Option String) :=
  let first := runAttempt env.pull1 env.push1 localData
  match first.1 with
  | .error SyncErr.conflict =>
      let second := runAttempt env.pull2 env.push2 localData
      (second.1, first.2 ++ second.2)
  | other => (other, first.2)

/-- Modelled from the spec: the remote versioned store's `write`
(the GitHub Contents API PUT, which is not part of this repository).
The store holds `none` or a (version token, document) pair; `write`
creates the resource when no expected token is sent and none exists,
replaces it when the expected token matches, and fails with a conflict
otherwise. -/
def storeWrite (store : Option (String × Snapshot))
    (expected : Option String) (d : Snapshot) (newSha : String) :
    Except Unit (Option (String × Snapshot)) :=
  match store, expected with
  | none, none => .ok (some (newSha, d))
  | some (cur, _), some e =>
      if e = cur then .ok (some (newSha, d)) else .error ()
  | some _, none => .error ()
  | none, some _ => .error ()

/-- A concrete store environment: first push conflicts, the retry
succeeds. -/
def envRetry : StoreEnv :=
  { pull1 := .found snapB "sha1", push1 := .conflict,
    pull2 := .found snapB "sha2", push2 := .ok }

/-! ### URL parsing model (`_parseRepo`) -/

/-- The literal part `github\.com\/` of the repo-URL regex. -/
def repoPat : List Char :=
  ['g', 'i', 't', 'h', 'u', 'b', '.', 'c', 'o', 'm', '/']

/-- Match a literal pattern at the head of the input, returning the
rest on success. -/
def litMatch : List Char → List Char → Option (List Char)
  | [], rest => some rest
  | _ :: _, [] => none
  | p :: ps, c :: cs => if c = p then litMatch ps cs else none

/-- The capturing part `([^\/]+)\/([^\/.]+)` of the regex, applied
right after the literal: a nonempty maximal `/`-free run, a `/`, then a
nonempty run free of `/` and `.`. -/
def tailMatch (cs : List Char) : Option (String × String) :=
  let owner := cs.takeWhile (fun c => c ≠ '/')
  if owner.isEmpty then none
  else
    match cs.dropWhile (fun c => c ≠ '/') with
    | [] => none
    | d :: rest =>
        if d = '/' then
          let repo := rest.takeWhile (fun c => c ≠ '/' ∧ c ≠ '.')
          if repo.isEmpty then none
          else some (String.mk owner, String.mk repo)
        else none

/-- Unanchored regex search: try every start position left to right. -/
def findRepo : List Char → Option (String × String)
  | [] => none
  | c :: cs =>
      match litMatch repoPat (c :: cs) with
      | some rest =>
          match tailMatch rest with
          | some r => some r
          | none => findRepo cs
      | none => findRepo cs

/-- `GitHubSyncManager._parseRepo`: match the configured URL against
`/github\.com\/([^\/]+)\/([^\/.]+)/` and throw when there is no
match. -/
def parseRepo (url : String) : Except String (String × String) :=
  match findRepo url.data with
  | some r => .ok r
  | none => .error ("Invalid GitHub repo URL: " ++ url)

/-- Split a character list at `/`. -/
def splitSlash : List Char → List (List Char)
  | [] => [[]]
  | c :: cs =>
      if c = '/' then [] :: splitSlash cs
      else
        match splitSlash cs with
        | [] => [[c]]
        | g :: gs => (c :: g) :: gs

/-- Modelled from the spec: the URL shape
`https://<host>/<owner>/<repo>[.git]` that §6 of the spec says is
accepted (host, owner and repo nonempty; `<repo>[.git]` must not be the
bare suffix `.git`). -/
def specUrlShape (url : String) : Bool :=
  match splitSlash url.data with
  | [scheme, empty, host, owner, repo] =>
      scheme = "https:".data && empty = [] && host ≠ [] &&
        owner ≠ [] && repo ≠ [] && repo ≠ ".git".data
  | _ => false

theorem mapGet_nil {α : Type} (k : String) :
    mapGet ([] : List (String × α)) k = none := rfl

theorem mapGet_cons {α : Type} (p : String × α) (m : List (String × α))
    (k : String) :
    mapGet (p :: m) k = if p.1 = k then some p.2 else mapGet m k := by
  unfold mapGet
  by_cases h : p.1 = k
  · rw [List.find?_cons_of_pos _ (by simpa using h)]
    simp [h]
  · rw [List.find?_cons_of_neg _ (by simpa using h)]
    simp [h]

theorem mapGet_eq_none_of_not_mem {α : Type} {m : List (String × α)}
    {k : String} (h : k ∉ keys m) : mapGet m k = none := by
  induction m with
  | nil => rfl
  | cons p t ih =>
      rw [mapGet_cons]
      rw [keys, List.map_cons] at h
      have h1 : p.1 ≠ k := fun hk => h (by simp [hk])
      rw [if_neg h1]
      exact ih (fun hk => h (List.mem_cons_of_mem _ hk))

theorem mem_keys_of_mapGet_eq_some {α : Type} {m : List (String × α)}
    {k : String} {v : α} (h : mapGet m k = some v) : k ∈ keys m := by
  by_contra hk
  rw [mapGet_eq_none_of_not_mem hk] at h
  exact Option.noConfusion h

theorem mapGet_isSome_of_mem_keys {α : Type} {m : List (String × α)}
    {k : String} (h : k ∈ keys m) : (mapGet m k).isSome := by
  induction m with
  | nil => simp [keys] at h
  | cons p t ih =>
      rw [mapGet_cons]
      by_cases h1 : p.1 = k
      · simp [h1]
      · rw [if_neg h1]
        rw [keys, List.map_cons] at h
        rcases List.mem_cons.mp h with h2 | h2
        · exact absurd h2.symm h1
        · exact ih h2

theorem mapGet_eq_some_of_mem {α : Type} {m : List (String × α)}
    {k : String} {v : α} (hnd : (keys m).Nodup) (hm : (k, v) ∈ m) :
    mapGet m k = some v := by
  induction m with
  | nil => simp at hm
  | cons p t ih =>
      rw [keys, List.map_cons, List.nodup_cons] at hnd
      rw [mapGet_cons]
      rcases List.mem_cons.mp hm with h | h
      · rw [← h]; simp
      · have h1 : p.1 ≠ k := by
          intro hk
          exact hnd.1 (hk ▸ (List.mem_map.mpr ⟨(k, v), h, rfl⟩))
        rw [if_neg h1]
        exact ih hnd.2 h

theorem mapGet_replace_ne {α : Type} (m : List (String × α)) (k : String)
    (v : α) {k' : String} (hk : k' ≠ k) :
    mapGet (m.map (fun p => if p.1 = k then (k, v) else p)) k'
      = mapGet m k' := by
  induction m with
  | nil => rfl
  | cons p t ih =>
      rw [List.map_cons, mapGet_cons, mapGet_cons]
      by_cases hp : p.1 = k
      · rw [if_pos hp]
        have h1 : (k, v).1 ≠ k' := fun h => hk (h.symm)
        rw [if_neg h1, if_neg (hp ▸ h1), ih]
      · rw [if_neg hp, ih]

theorem mapGet_replace_eq {α : Type} (m : List (String × α)) (k : String)
    (v : α) (hany : m.any (fun p => p.1 = k)) :
    mapGet (m.map (fun p => if p.1 = k then (k, v) else p)) k
      = some v := by
  induction m with
  | nil => simp at hany
  | cons p t ih =>
      rw [List.map_cons, mapGet_cons]
      by_cases hp : p.1 = k
      · rw [if_pos hp]; simp
      · rw [if_neg hp, if_neg hp]
        rw [List.any_cons] at hany
        rcases Bool.or_eq_true_iff.mp hany with h | h
        · exact absurd (by simpa using h) hp
        · exact ih h

theorem mapGet_append_single_eq {α : Type} (m : List (String × α))
    (k : String) (v : α) (hnone : ∀ p ∈ m, p.1 ≠ k) :
    mapGet (m ++ [(k, v)]) k = some v := by
  induction m with
  | nil => simp [mapGet_cons]
  | cons p t ih =>
      rw [List.cons_append, mapGet_cons,
        if_neg (hnone p (List.mem_cons_self p t))]
      exact ih (fun q hq => hnone q (List.mem_cons_of_mem _ hq))

theorem mapGet_append_single_ne {α : Type} (m : List (String × α))
    (k : String) (v : α) {k' : String} (hk : k' ≠ k) :
    mapGet (m ++ [(k, v)]) k' = mapGet m k' := by
  induction m with
  | nil =>
      rw [List.nil_append, mapGet_cons, mapGet_nil,
        if_neg (fun h : (k, v).1 = k' => hk h.symm)]
  | cons p t ih =>
      rw [List.cons_append, mapGet_cons, mapGet_cons, ih]

theorem mapGet_mapSet {α : Type} (m : List (String × α)) (k : String)
    (v : α) (k' : String) :
    mapGet (mapSet m k v) k' = if k' = k then some v else mapGet m k' := by
  unfold mapSet
  by_cases hany : m.any (fun p => p.1 = k)
  · rw [if_pos hany]
    by_cases hk : k' = k
    · subst hk; rw [if_pos rfl, mapGet_replace_eq m k' v hany]
    · rw [if_neg hk, mapGet_replace_ne m k v hk]
  · rw [if_neg hany]
    by_cases hk : k' = k
    · subst hk
      rw [if_pos rfl]
      refine mapGet_append_single_eq m k' v (fun p hp h => ?_)
      exact hany (List.any_eq_true.mpr ⟨p, hp, by simpa using h⟩)
    · rw [if_neg hk, mapGet_append_single_ne m k v hk]

theorem keys_replace {α : Type} (m : List (String × α)) (k : String)
    (v : α) :
    keys (m.map (fun p => if p.1 = k then (k, v) else p)) = keys m := by
  unfold keys
  induction m with
  | nil => rfl
  | cons p t ih =>
      simp only [List.map_cons]
      by_cases hp : p.1 = k
      · rw [if_pos hp, ih]; simp [hp]
      · rw [if_neg hp, ih]

theorem keys_mapSet_nodup {α : Type} {m : List (String × α)}
    (k : String) (v : α) (h : (keys m).Nodup) :
    (keys (mapSet m k v)).Nodup := by
  unfold mapSet
  by_cases hany : m.any (fun p => p.1 = k)
  · rw [if_pos hany, keys_replace]; exact h
  · rw [if_neg hany]
    have hk : k ∉ keys m := by
      intro hmem
      rcases List.mem_map.mp hmem with ⟨p, hp, hpk⟩
      exact hany (List.any_eq_true.mpr ⟨p, hp, by simpa using hpk⟩)
    unfold keys
    rw [List.map_append]
    simp only [List.map_cons, List.map_nil]
    rw [List.nodup_append]
    exact ⟨h, List.nodup_singleton k, by
      intro x hx hx1
      simp at hx1
      exact hk (hx1 ▸ hx)⟩

/-- Every entry of the note map has its note's id as key. -/
def goodEntries (m : List (String × Note)) : Prop :=
  ∀ p ∈ m, p.1 = p.2.id

theorem goodEntries_mapSet {m : List (String × Note)} {n : Note}
    (h : goodEntries m) : goodEntries (mapSet m n.id n) := by
  unfold mapSet
  by_cases hany : m.any (fun p => p.1 = n.id)
  · rw [if_pos hany]
    intro p hp
    rcases List.mem_map.mp hp with ⟨q, hq, hfq⟩
    by_cases hqk : q.1 = n.id
    · rw [if_pos hqk] at hfq; rw [← hfq]
    · rw [if_neg hqk] at hfq; rw [← hfq]; exact h q hq
  · rw [if_neg hany]
    intro p hp
    rcases List.mem_append.mp hp with h1 | h1
    · exact h p h1
    · simp at h1; rw [h1]

theorem goodEntries_noteStep {m : List (String × Note)} {n : Note}
    (h : goodEntries m) : goodEntries (noteStep m n) := by
  unfold noteStep
  cases hget : mapGet m n.id with
  | none => exact goodEntries_mapSet h
  | some ex =>
      dsimp only
      by_cases ht : noteTime ex ≤ noteTime n
      · rw [if_pos ht]; exact goodEntries_mapSet h
      · rw [if_neg ht]; exact h

theorem keys_noteStep_nodup {m : List (String × Note)} {n : Note}
    (h : (keys m).Nodup) : (keys (noteStep m n)).Nodup := by
  unfold noteStep
  cases hget : mapGet m n.id with
  | none => exact keys_mapSet_nodup _ _ h
  | some ex =>
      dsimp only
      by_cases ht : noteTime ex ≤ noteTime n
      · rw [if_pos ht]; exact keys_mapSet_nodup _ _ h
      · rw [if_neg ht]; exact h

theorem foldl_preserve {α β : Type} (f : α → β → α) (P : α → Prop)
    (hf : ∀ m x, P m → P (f m x)) :
    ∀ (l : List β) (m : α), P m → P (l.foldl f m) := by
  intro l
  induction l with
  | nil => intro m hm; exact hm
  | cons x t ih => intro m hm; exact ih (f m x) (hf m x hm)

theorem mergeNotesMap_good (ln rn : List Note) :
    goodEntries (mergeNotesMap ln rn) := by
  unfold mergeNotesMap
  refine foldl_preserve noteStep goodEntries
    (fun m x hm => goodEntries_noteStep hm) ln _ ?_
  refine foldl_preserve _ goodEntries
    (fun m x hm => goodEntries_mapSet hm) rn [] ?_
  intro p hp; simp at hp

theorem foldInsert_get (rn : List Note) (i : String) :
    ∀ m : List (String × Note), (rn.map (·.id)).Nodup →
      mapGet (rn.foldl (fun m n => mapSet m n.id n) m) i =
        (match rn.find? (fun n => n.id = i) with
         | some b => some b
         | none => mapGet m i) := by
  induction rn with
  | nil => intro m _; rfl
  | cons n t ih =>
      intro m hnd
      rw [List.map_cons, List.nodup_cons] at hnd
      rw [List.foldl_cons]
      by_cases hni : n.id = i
      · rw [List.find?_cons_of_pos _ (by simpa using hni)]
        have htnone : List.find? (fun x => x.id = i) t = none := by
          apply List.find?_eq_none.mpr
          intro b hb hbi
          refine hnd.1 (List.mem_map.mpr ⟨b, hb, ?_⟩)
          have hb2 : b.id = i := by simpa using hbi
          rw [hb2, hni]
        rw [ih (mapSet m n.id n) hnd.2, htnone]
        dsimp only
        rw [mapGet_mapSet, if_pos hni.symm]
      · rw [List.find?_cons_of_neg _ (by simpa using hni)]
        rw [ih (mapSet m n.id n) hnd.2]
        cases hf : List.find? (fun x => x.id = i) t with
        | some b => rfl
        | none =>
            dsimp only
            rw [mapGet_mapSet, if_neg (fun h => hni h.symm)]

theorem foldStep_get (ln : List Note) (i : String) :
    ∀ m : List (String × Note), (ln.map (·.id)).Nodup →
      mapGet (ln.foldl noteStep m) i =
        (match ln.find? (fun n => n.id = i) with
         | none => mapGet m i
         | some a =>
             match mapGet m i with
             | none => some a
             | some ex =>
                 some (if noteTime ex ≤ noteTime a then a else ex)) := by
  induction ln with
  | nil => intro m _; rfl
  | cons a t ih =>
      intro m hnd
      rw [List.map_cons, List.nodup_cons] at hnd
      rw [List.foldl_cons]
      by_cases hai : a.id = i
      · rw [List.find?_cons_of_pos _ (by simpa using hai)]
        have htnone : List.find? (fun x => x.id = i) t = none := by
          apply List.find?_eq_none.mpr
          intro b hb hbi
          refine hnd.1 (List.mem_map.mpr ⟨b, hb, ?_⟩)
          have hb2 : b.id = i := by simpa using hbi
          rw [hb2, hai]
        rw [ih (noteStep m a) hnd.2, htnone]
        dsimp only
        unfold noteStep
        rw [hai]
        cases hm : mapGet m i with
        | none =>
            dsimp only
            rw [mapGet_mapSet, if_pos rfl]
        | some ex =>
            dsimp only
            by_cases ht : noteTime ex ≤ noteTime a
            · rw [if_pos ht, mapGet_mapSet, if_pos rfl, if_pos ht]
            · rw [if_neg ht, hm, if_neg ht]
      · rw [List.find?_cons_of_neg _ (by simpa using hai)]
        rw [ih (noteStep m a) hnd.2]
        have hstep : mapGet (noteStep m a) i = mapGet m i := by
          unfold noteStep
          cases hg : mapGet m a.id with
          | none => rw [mapGet_mapSet, if_neg (fun h => hai h.symm)]
          | some ex =>
              dsimp only
              by_cases ht : noteTime ex ≤ noteTime a
              · rw [if_pos ht, mapGet_mapSet,
                  if_neg (fun h => hai h.symm)]
              · rw [if_neg ht]
        rw [hstep]

theorem mergeNotesMap_keys_nodup (ln rn : List Note) :
    (keys (mergeNotesMap ln rn)).Nodup := by
  unfold mergeNotesMap
  refine foldl_preserve noteStep (fun m => (keys m).Nodup)
    (fun m x hm => keys_noteStep_nodup hm) ln _ ?_
  refine foldl_preserve _ (fun m => (keys m).Nodup)
    (fun m x hm => keys_mapSet_nodup _ _ hm) rn [] ?_
  exact List.nodup_nil

theorem mergeNotesMap_get (ln rn : List Note) (i : String)
    (hl : (ln.map (·.id)).Nodup) (hr : (rn.map (·.id)).Nodup) :
    mapGet (mergeNotesMap ln rn) i =
      (match ln.find? (fun n => n.id = i),
          rn.find? (fun n => n.id = i) with
       | some a, some b =>
           some (if noteTime b ≤ noteTime a then a else b)
       | some a, none => some a
       | none, some b => some b
       | none, none => none) := by
  unfold mergeNotesMap
  rw [foldStep_get ln i _ hl, foldInsert_get rn i [] hr]
  cases hfl : ln.find? (fun n => n.id = i) with
  | none =>
      cases hfr : rn.find? (fun n => n.id = i) with
      | none => rfl
      | some b => rfl
  | some a =>
      cases hfr : rn.find? (fun n => n.id = i) with
      | none => rfl
      | some b => rfl

theorem values_filter {m : List (String × Note)} (i : String) :
    goodEntries m → (keys m).Nodup →
      (m.map (·.2)).filter (fun n => n.id = i) =
        (match mapGet m i with | some v => [v] | none => []) := by
  induction m with
  | nil => intro _ _; rfl
  | cons p t ih =>
      intro hg hnd
      rw [keys, List.map_cons, List.nodup_cons] at hnd
      have hpid : p.1 = p.2.id := hg p (List.mem_cons_self p t)
      have hgt : goodEntries t :=
        fun q hq => hg q (List.mem_cons_of_mem _ hq)
      rw [List.map_cons, mapGet_cons]
      by_cases hi : p.2.id = i
      · rw [List.filter_cons_of_pos (by simpa using hi),
          if_pos (hpid.trans hi)]
        have hnil : List.filter (fun n => n.id = i) (t.map (·.2)) = [] := by
          rw [List.filter_eq_nil_iff]
          intro n hn
          rcases List.mem_map.mp hn with ⟨q, hq, hq2⟩
          have hq1 : q.1 = q.2.id := hgt q hq
          simp only [decide_eq_true_eq]
          intro hni
          apply hnd.1
          refine List.mem_map.mpr ⟨q, hq, ?_⟩
          rw [hq1, hq2]
          rw [hni, ← hi, ← hpid]
        rw [hnil]
      · rw [List.filter_cons_of_neg (by simpa using hi),
          if_neg (fun h => hi (hpid ▸ h))]
        exact ih hgt hnd.2

theorem find?_id_of_mem {ns : List Note} {a : Note}
    (hnd : notesWF ns) (ha : a ∈ ns) :
    ns.find? (fun n => n.id = a.id) = some a := by
  induction ns with
  | nil => simp at ha
  | cons n t ih =>
      rw [notesWF, List.map_cons, List.nodup_cons] at hnd
      rcases List.mem_cons.mp ha with h | h
      · rw [h]
        exact List.find?_cons_of_pos _ (by simp)
      · have hne : n.id ≠ a.id :=
          fun he => hnd.1 (List.mem_map.mpr ⟨a, h, he.symm⟩)
        rw [List.find?_cons_of_neg _ (by simpa using hne), ih hnd.2 h]

/-- The per-id content of `_mergeNotes`: with well-formed inputs, the
result holds, for each id, the local note if only local has it, the
remote note if only remote has it, and the recency winner (local on
ties) if both have it. -/
theorem mergeNotes_filter (ln rn : List Note) (i : String)
    (hl : notesWF ln) (hr : notesWF rn) :
    (mergeNotes ln rn).filter (fun n => n.id = i) =
      (match ln.find? (fun n => n.id = i),
          rn.find? (fun n => n.id = i) with
       | some a, some b => [if noteTime b ≤ noteTime a then a else b]
       | some a, none => [a]
       | none, some b => [b]
       | none, none => []) := by
  unfold mergeNotes
  rw [values_filter i (mergeNotesMap_good ln rn)
    (mergeNotesMap_keys_nodup ln rn)]
  rw [mergeNotesMap_get ln rn i hl hr]
  cases hfl : ln.find? (fun n => n.id = i) with
  | none =>
      cases hfr : rn.find? (fun n => n.id = i) with
      | none => rfl
      | some b => rfl
  | some a =>
      cases hfr : rn.find? (fun n => n.id = i) with
      | none => rfl
      | some b => rfl

/-- C1: for note lists with unique ids, a note id present in both lists
with different (fallback-aware) timestamps appears exactly once in the
merged result, as the note with the later timestamp; the merge builds
the result from the remote notes and then inserts or replaces with local
notes (`mergeNotes`). -/
theorem c1_later_note_wins (ln rn : List Note) (a b : Note) (i : String)
    (hl : notesWF ln) (hr : notesWF rn)
    (ha : a ∈ ln) (hai : a.id = i) (hb : b ∈ rn) (hbi : b.id = i)
    (hne : noteTime a ≠ noteTime b) :
    (mergeNotes ln rn).filter (fun n => n.id = i) =
      [if noteTime b < noteTime a then a else b] := by
  subst hai
  rw [mergeNotes_filter ln rn a.id hl hr, find?_id_of_mem hl ha]
  have hfr : rn.find? (fun n => n.id = a.id) = some b := by
    have h := find?_id_of_mem hr hb
    rw [hbi] at h
    exact h
  rw [hfr]
  dsimp only
  by_cases h : noteTime b < noteTime a
  · rw [if_pos h, if_pos (le_of_lt h)]
  · have h2 : ¬ noteTime b ≤ noteTime a :=
      fun hle => h (lt_of_le_of_ne hle (fun he => hne he.symm))
    rw [if_neg h2, if_neg h]

/-- Witness for C1 at concrete input: local note updated at 20, remote
note with the same id updated at 30 — merge keeps the remote note. -/
theorem c1_later_note_wins_witness :
    (mergeNotes [noteLoc] [noteRem]).filter (fun n => n.id = "n1") =
      [noteRem] := by
  have h := c1_later_note_wins [noteLoc] [noteRem] noteLoc noteRem "n1"
    (by decide) (by decide) (by decide) (by decide) (by decide)
    (by decide) (by decide)
  rw [h]
  decide

/-- C4: for note lists with unique ids, a note id present in both lists
with exactly equal (fallback-aware) timestamps maps in the merged result
to the local note, regardless of the notes' contents. -/
theorem c4_tie_local_wins (ln rn : List Note) (a b : Note) (i : String)
    (hl : notesWF ln) (hr : notesWF rn)
    (ha : a ∈ ln) (hai : a.id = i) (hb : b ∈ rn) (hbi : b.id = i)
    (heq : noteTime a = noteTime b) :
    (mergeNotes ln rn).filter (fun n => n.id = i) = [a] := by
  subst hai
  rw [mergeNotes_filter ln rn a.id hl hr, find?_id_of_mem hl ha]
  have hfr : rn.find? (fun n => n.id = a.id) = some b := by
    have h := find?_id_of_mem hr hb
    rw [hbi] at h
    exact h
  rw [hfr]
  dsimp only
  rw [if_pos (le_of_eq heq.symm)]

/-- Witness for C4 at concrete input: two notes with id `n1`, equal
timestamps and different content — the local one is kept. -/
theorem c4_tie_local_wins_witness :
    (mergeNotes [noteLoc] [noteTie]).filter (fun n => n.id = "n1") =
      [noteLoc] := by
  have h := c4_tie_local_wins [noteLoc] [noteTie] noteLoc noteTie "n1"
    (by decide) (by decide) (by decide) (by decide) (by decide)
    (by decide) (by decide)
  exact h

theorem jsInsert_mem (acc : List String) (k x : String) :
    x ∈ jsInsert acc k ↔ x ∈ acc ∨ x = k := by
  unfold jsInsert
  by_cases h : acc.contains k
  · rw [if_pos h]
    have hk : k ∈ acc := by simpa using h
    constructor
    · exact Or.inl
    · rintro (hx | hx)
      · exact hx
      · exact hx ▸ hk
  · rw [if_neg h]; simp

theorem jsDedup_go_mem : ∀ (l acc : List String) (x : String),
    x ∈ l.foldl jsInsert acc ↔ x ∈ acc ∨ x ∈ l := by
  intro l
  induction l with
  | nil => intro acc x; simp
  | cons k t ih =>
      intro acc x
      rw [List.foldl_cons, ih, jsInsert_mem]
      simp only [List.mem_cons]
      tauto

theorem jsDedup_go_nodup : ∀ (l acc : List String),
    acc.Nodup → (l.foldl jsInsert acc).Nodup := by
  intro l
  induction l with
  | nil => intro acc h; exact h
  | cons k t ih =>
      intro acc h
      rw [List.foldl_cons]
      apply ih
      unfold jsInsert
      by_cases hc : acc.contains k
      · rw [if_pos hc]; exact h
      · rw [if_neg hc, List.nodup_append]
        refine ⟨h, List.nodup_singleton k, ?_⟩
        intro x hx hx1
        simp at hx1
        have hkn : k ∉ acc := by simpa using hc
        exact hkn (hx1 ▸ hx)

theorem jsDedup_go_absorb : ∀ (l acc : List String),
    (∀ x ∈ l, x ∈ acc) → l.foldl jsInsert acc = acc := by
  intro l
  induction l with
  | nil => intro acc _; rfl
  | cons k t ih =>
      intro acc h
      rw [List.foldl_cons]
      have hk : jsInsert acc k = acc := by
        unfold jsInsert
        rw [if_pos (by simpa using h k (List.mem_cons_self k t))]
      rw [hk]
      exact ih acc (fun x hx => h x (List.mem_cons_of_mem _ hx))

theorem jsDedup_go_fresh : ∀ (l acc : List String),
    l.Nodup → (∀ x ∈ l, x ∉ acc) → l.foldl jsInsert acc = acc ++ l := by
  intro l
  induction l with
  | nil => intro acc _ _; simp
  | cons k t ih =>
      intro acc hnd h
      rw [List.nodup_cons] at hnd
      rw [List.foldl_cons]
      have hk : jsInsert acc k = acc ++ [k] := by
        unfold jsInsert
        rw [if_neg]
        intro hc
        exact h k (List.mem_cons_self k t) (by simpa using hc)
      have ht : t.foldl jsInsert (acc ++ [k]) = (acc ++ [k]) ++ t := by
        refine ih (acc ++ [k]) hnd.2 ?_
        intro x hx hmem
        rcases List.mem_append.mp hmem with h1 | h1
        · exact h x (List.mem_cons_of_mem _ hx) h1
        · simp at h1
          subst h1
          exact hnd.1 hx
      rw [hk, ht]
      simp

theorem jsSetUnion_mem (a b : List String) (x : String) :
    x ∈ jsSetUnion a b ↔ x ∈ a ∨ x ∈ b := by
  unfold jsSetUnion jsDedup
  rw [jsDedup_go_mem]
  simp

theorem jsSetUnion_nodup (a b : List String) :
    (jsSetUnion a b).Nodup :=
  jsDedup_go_nodup _ _ List.nodup_nil

theorem jsSetUnion_self (a : List String) (h : a.Nodup) :
    jsSetUnion a a = a := by
  unfold jsSetUnion jsDedup
  rw [List.foldl_append]
  have h1 : a.foldl jsInsert [] = a := by
    simpa using jsDedup_go_fresh a [] h (by simp)
  rw [h1]
  exact jsDedup_go_absorb a a (fun x hx => hx)

theorem jsSetUnion_disjoint (a b : List String) (ha : a.Nodup)
    (hb : b.Nodup) (hd : ∀ x ∈ b, x ∉ a) : jsSetUnion a b = a ++ b := by
  unfold jsSetUnion jsDedup
  rw [List.foldl_append]
  have h1 : a.foldl jsInsert [] = a := by
    simpa using jsDedup_go_fresh a [] ha (by simp)
  rw [h1]
  exact jsDedup_go_fresh b a hb hd

theorem mapGet_mem {α : Type} {m : List (String × α)} {k : String}
    {v : α} (h : mapGet m k = some v) : (k, v) ∈ m := by
  unfold mapGet at h
  cases hf : m.find? (fun p => p.1 = k) with
  | none => rw [hf] at h; exact absurd h (by simp)
  | some q =>
      rw [hf] at h
      have hq := List.mem_of_find?_eq_some hf
      have hk : q.1 = k := by simpa using List.find?_some hf
      obtain ⟨q1, q2⟩ := q
      have hv : q2 = v := by simpa using h
      rw [← hk, ← hv]
      exact hq

theorem mapGet_filterMap {α : Type} (u : List String)
    (g : String → Option (String × α))
    (hg : ∀ j x, g j = some x → x.1 = j) (i : String) :
    mapGet (u.filterMap g) i =
      if i ∈ u then (g i).map (·.2) else none := by
  induction u with
  | nil => simp [mapGet_nil]
  | cons j t ih =>
      rw [List.filterMap_cons]
      cases hj : g j with
      | none =>
          rw [ih]
          by_cases hij : i = j
          · subst hij
            by_cases hi : i ∈ t
            · rw [if_pos hi, if_pos (List.mem_cons_self i t)]
            · rw [if_neg hi, if_pos (List.mem_cons_self i t), hj]
              rfl
          · by_cases hi : i ∈ t
            · rw [if_pos hi, if_pos (List.mem_cons_of_mem _ hi)]
            · rw [if_neg hi, if_neg (by simp [hij, hi])]
      | some x =>
          have hx1 : x.1 = j := hg j x hj
          rw [mapGet_cons]
          by_cases hxi : x.1 = i
          · have hij : i = j := hxi ▸ hx1
            rw [if_pos hxi, if_pos (hij ▸ List.mem_cons_self j t)]
            rw [hij, hj]
            rfl
          · have hij2 : i ≠ j := fun he => hxi (hx1.trans he.symm)
            rw [if_neg hxi, ih]
            by_cases hi : i ∈ t
            · rw [if_pos hi, if_pos (List.mem_cons_of_mem _ hi)]
            · rw [if_neg hi, if_neg (by simp [hij2, hi])]

theorem keys_filterMap {α : Type} (u : List String)
    (g : String → Option (String × α))
    (hg : ∀ j x, g j = some x → x.1 = j) :
    keys (u.filterMap g) = u.filter (fun j => (g j).isSome) := by
  induction u with
  | nil => rfl
  | cons j t ih =>
      rw [List.filterMap_cons]
      cases hj : g j with
      | none => rw [List.filter_cons_of_neg (by simp [hj]), ih]
      | some x =>
          rw [List.filter_cons_of_pos (by simp [hj])]
          unfold keys
          rw [List.map_cons]
          have := ih
          unfold keys at this
          rw [this, hg j x hj]

theorem filterMap_keys_of_getEq {α : Type} :
    ∀ (m : List (String × α)), (keys m).Nodup →
      ∀ (g : String → Option (String × α)),
        (∀ k v, mapGet m k = some v → g k = some (k, v)) →
        (keys m).filterMap g = m := by
  intro m
  induction m with
  | nil => intro _ g _; rfl
  | cons p t ih =>
      intro hnd g hg
      obtain ⟨k, v⟩ := p
      unfold keys at hnd ⊢
      rw [List.map_cons] at hnd ⊢
      rw [List.nodup_cons] at hnd
      rw [List.filterMap_cons]
      have hk : g k = some (k, v) := by
        apply hg
        rw [mapGet_cons]
        simp
      rw [hk]
      have ht : (keys t).filterMap g = t := by
        refine ih hnd.2 g ?_
        intro k' v' hget
        apply hg
        rw [mapGet_cons, if_neg]
        · exact hget
        · intro hke
          have hmem : k' ∈ keys t := mem_keys_of_mapGet_eq_some hget
          simp only at hke
          exact hnd.1 (hke ▸ hmem)
      unfold keys at ht
      rw [ht]

theorem mergeEntry_key (a b : List (String × Project)) (j : String)
    (x : String × Project)
    (h : (match mapGet a j, mapGet b j with
          | some l, some r =>
              some (j, { l with notes := mergeNotes l.notes r.notes })
          | some l, none => some (j, l)
          | none, some r => some (j, r)
          | none, none => none) = some x) : x.1 = j := by
  revert h
  cases mapGet a j <;> cases mapGet b j <;> intro h
  · exact Option.noConfusion h
  · injection h with h2; rw [← h2]
  · injection h with h2; rw [← h2]
  · injection h with h2; rw [← h2]

theorem mergeProjects_get (a b : List (String × Project)) (i : String) :
    mapGet (mergeProjects a b) i =
      (match mapGet a i, mapGet b i with
       | some lp, some rp =>
           some { lp with notes := mergeNotes lp.notes rp.notes }
       | some lp, none => some lp
       | none, some rp => some rp
       | none, none => none) := by
  unfold mergeProjects
  rw [mapGet_filterMap _ _ (fun j x h => mergeEntry_key a b j x h) i]
  by_cases hi : i ∈ jsSetUnion (keys a) (keys b)
  · rw [if_pos hi]
    cases ha : mapGet a i <;> cases hb : mapGet b i <;> rfl
  · rw [if_neg hi]
    have hia : i ∉ keys a :=
      fun h => hi ((jsSetUnion_mem _ _ _).mpr (Or.inl h))
    have hib : i ∉ keys b :=
      fun h => hi ((jsSetUnion_mem _ _ _).mpr (Or.inr h))
    rw [mapGet_eq_none_of_not_mem hia, mapGet_eq_none_of_not_mem hib]

theorem mergeProjects_keys_nodup (a b : List (String × Project)) :
    (keys (mergeProjects a b)).Nodup := by
  unfold mergeProjects
  rw [keys_filterMap _ _ (fun j x h => mergeEntry_key a b j x h)]
  exact (jsSetUnion_nodup _ _).filter _

theorem mergeProjects_mem_keys (a b : List (String × Project))
    (i : String) :
    i ∈ keys (mergeProjects a b) ↔ i ∈ keys a ∨ i ∈ keys b := by
  unfold mergeProjects
  rw [keys_filterMap _ _ (fun j x h => mergeEntry_key a b j x h)]
  rw [List.mem_filter]
  constructor
  · rintro ⟨h1, _⟩
    exact (jsSetUnion_mem _ _ _).mp h1
  · intro h
    refine ⟨(jsSetUnion_mem _ _ _).mpr h, ?_⟩
    rcases h with h | h
    · obtain ⟨v, hv⟩ :=
        Option.isSome_iff_exists.mp (mapGet_isSome_of_mem_keys h)
      rw [hv]
      cases mapGet b i <;> rfl
    · obtain ⟨v, hv⟩ :=
        Option.isSome_iff_exists.mp (mapGet_isSome_of_mem_keys h)
      rw [hv]
      cases mapGet a i <;> rfl

/-- C3: with both snapshots present, each of `projects` and
`archivedProjects` of the merged snapshot is keyed by exactly the union
of the two key sets; a key on one side only keeps that side's project
unchanged, and a key on both sides gets all scalar fields from the local
project with `notes` replaced by the note-merge of the two sides. -/
theorem c3_project_union_local_scalars (l r : Snapshot) (i : String) :
    (mapGet (mergeCore l r).projects i =
      (match mapGet l.projects i, mapGet r.projects i with
       | some lp, some rp =>
           some { lp with notes := mergeNotes lp.notes rp.notes }
       | some lp, none => some lp
       | none, some rp => some rp
       | none, none => none))
    ∧ (i ∈ keys (mergeCore l r).projects ↔
        i ∈ keys l.projects ∨ i ∈ keys r.projects)
    ∧ (keys (mergeCore l r).projects).Nodup
    ∧ (mapGet (mergeCore l r).archivedProjects i =
      (match mapGet l.archivedProjects i, mapGet r.archivedProjects i with
       | some lp, some rp =>
           some { lp with notes := mergeNotes lp.notes rp.notes }
       | some lp, none => some lp
       | none, some rp => some rp
       | none, none => none))
    ∧ (i ∈ keys (mergeCore l r).archivedProjects ↔
        i ∈ keys l.archivedProjects ∨ i ∈ keys r.archivedProjects)
    ∧ (keys (mergeCore l r).archivedProjects).Nodup :=
  ⟨mergeProjects_get l.projects r.projects i,
   mergeProjects_mem_keys l.projects r.projects i,
   mergeProjects_keys_nodup l.projects r.projects,
   mergeProjects_get l.archivedProjects r.archivedProjects i,
   mergeProjects_mem_keys l.archivedProjects r.archivedProjects i,
   mergeProjects_keys_nodup l.archivedProjects r.archivedProjects⟩

theorem replace_id {α : Type} (k : String) (v : α) :
    ∀ (l : List (String × α)), (∀ p ∈ l, p.1 = k → p = (k, v)) →
      l.map (fun p => if p.1 = k then (k, v) else p) = l := by
  intro l
  induction l with
  | nil => intro _; rfl
  | cons p t ih =>
      intro h
      rw [List.map_cons, ih (fun q hq => h q (List.mem_cons_of_mem _ hq))]
      congr 1
      by_cases hp : p.1 = k
      · rw [if_pos hp]
        exact (h p (List.mem_cons_self p t) hp).symm
      · rw [if_neg hp]

theorem mapSet_self {α : Type} {m : List (String × α)} {k : String}
    {v : α} (hmem : (k, v) ∈ m)
    (huniq : ∀ p ∈ m, p.1 = k → p = (k, v)) : mapSet m k v = m := by
  unfold mapSet
  rw [if_pos (List.any_eq_true.mpr ⟨(k, v), hmem, by simp⟩)]
  exact replace_id k v m huniq

theorem foldl_fixed {α β : Type} (f : α → β → α) (m : α) :
    ∀ l : List β, (∀ x ∈ l, f m x = m) → l.foldl f m = m := by
  intro l
  induction l with
  | nil => intro _; rfl
  | cons x t ih =>
      intro h
      rw [List.foldl_cons, h x (List.mem_cons_self x t)]
      exact ih (fun y hy => h y (List.mem_cons_of_mem _ hy))

theorem foldInsert_fresh :
    ∀ (rn : List Note) (m : List (String × Note)),
      (rn.map (·.id)).Nodup → (∀ n ∈ rn, n.id ∉ keys m) →
      rn.foldl (fun m n => mapSet m n.id n) m
        = m ++ rn.map (fun n => (n.id, n)) := by
  intro rn
  induction rn with
  | nil => intro m _ _; simp
  | cons n t ih =>
      intro m hnd hfresh
      rw [List.map_cons, List.nodup_cons] at hnd
      rw [List.foldl_cons]
      have hset : mapSet m n.id n = m ++ [(n.id, n)] := by
        unfold mapSet
        rw [if_neg]
        intro hany
        rcases List.any_eq_true.mp hany with ⟨p, hp, hpk⟩
        exact hfresh n (List.mem_cons_self n t)
          (List.mem_map.mpr ⟨p, hp, by simpa using hpk⟩)
      have hrec : t.foldl (fun m n => mapSet m n.id n) (m ++ [(n.id, n)])
          = (m ++ [(n.id, n)]) ++ t.map (fun n => (n.id, n)) := by
        refine ih (m ++ [(n.id, n)]) hnd.2 ?_
        intro q hq hqmem
        unfold keys at hqmem
        rw [List.map_append] at hqmem
        rcases List.mem_append.mp hqmem with h1 | h1
        · exact hfresh q (List.mem_cons_of_mem _ hq) h1
        · simp at h1
          exact hnd.1 (List.mem_map.mpr ⟨q, hq, h1⟩)
      rw [hset, hrec, List.map_cons]
      simp

theorem mapGet_pairs {ns : List Note} (hnd : notesWF ns) {n : Note}
    (hn : n ∈ ns) :
    mapGet (ns.map (fun n => (n.id, n))) n.id = some n := by
  apply mapGet_eq_some_of_mem
  · unfold keys
    rw [List.map_map]
    simpa [Function.comp] using hnd
  · exact List.mem_map.mpr ⟨n, hn, rfl⟩

theorem mergeNotes_self (ns : List Note) (h : notesWF ns) :
    mergeNotes ns ns = ns := by
  unfold mergeNotes mergeNotesMap
  have h0 : ns.foldl (fun m n => mapSet m n.id n) []
      = ns.map (fun n => (n.id, n)) := by
    have hf := foldInsert_fresh ns [] h (by intro n _ hk; simp [keys] at hk)
    simpa using hf
  rw [h0]
  have h1 : ns.foldl noteStep (ns.map (fun n => (n.id, n)))
      = ns.map (fun n => (n.id, n)) := by
    apply foldl_fixed
    intro n hn
    unfold noteStep
    rw [mapGet_pairs h hn]
    dsimp only
    rw [if_pos le_rfl]
    have huniq : ∀ p ∈ ns.map (fun n => (n.id, n)), p.1 = n.id →
        p = (n.id, n) := by
      intro p hp hpk
      rcases List.mem_map.mp hp with ⟨q, hq, hqp⟩
      rw [← hqp] at hpk ⊢
      have hqn : q = n :=
        List.inj_on_of_nodup_map h hq hn (by simpa using hpk)
      rw [hqn]
    exact @mapSet_self Note (ns.map (fun n => (n.id, n))) n.id n
      (List.mem_map.mpr ⟨n, hn, rfl⟩) huniq
  rw [h1, List.map_map]
  show ns.map (fun n => n) = ns
  exact List.map_id' ns

theorem mergeProjects_self (m : List (String × Project))
    (h : projMapWF m) : mergeProjects m m = m := by
  unfold mergeProjects
  rw [jsSetUnion_self (keys m) h.1]
  apply filterMap_keys_of_getEq m h.1
  intro k v hget
  rw [hget]
  dsimp only
  rw [mergeNotes_self v.notes (h.2 (k, v) (mapGet_mem hget))]

/-- C6: merging a well-formed snapshot with itself returns it unchanged
(structural equality). -/
theorem c6_merge_idempotent (X : Snapshot) (h : snapWF X) :
    mergeData (some X) (some X) = some X := by
  have hcore : mergeCore X X = X := by
    obtain ⟨hv, he, hp, ha⟩ := h
    cases X with
    | mk v ps aps ex =>
        unfold mergeCore
        congr 1
        · unfold jsOr
          rw [if_neg hv]
        · exact mergeProjects_self ps hp
        · exact mergeProjects_self aps ha
        · exact he.symm
  rw [show mergeData (some X) (some X) = some (mergeCore X X) from rfl,
    hcore]

/-- Witness for C6 at a concrete snapshot. -/
theorem c6_merge_idempotent_witness :
    mergeData (some snapA) (some snapA) = some snapA :=
  c6_merge_idempotent snapA (by decide)

theorem mergeProjects_disjoint (a b : List (String × Project))
    (ha : (keys a).Nodup) (hb : (keys b).Nodup)
    (hd : ∀ k ∈ keys b, k ∉ keys a) : mergeProjects a b = a ++ b := by
  unfold mergeProjects
  rw [jsSetUnion_disjoint (keys a) (keys b) ha hb hd,
    List.filterMap_append]
  have h1 : (keys a).filterMap (fun id =>
      match mapGet a id, mapGet b id with
      | some l, some r =>
          some (id, { l with notes := mergeNotes l.notes r.notes })
      | some l, none => some (id, l)
      | none, some r => some (id, r)
      | none, none => none) = a := by
    apply filterMap_keys_of_getEq a ha
    intro k v hget
    rw [hget]
    have hbn : mapGet b k = none := by
      apply mapGet_eq_none_of_not_mem
      intro hkb
      exact hd k hkb (mem_keys_of_mapGet_eq_some hget)
    rw [hbn]
  have h2 : (keys b).filterMap (fun id =>
      match mapGet a id, mapGet b id with
      | some l, some r =>
          some (id, { l with notes := mergeNotes l.notes r.notes })
      | some l, none => some (id, l)
      | none, some r => some (id, r)
      | none, none => none) = b := by
    apply filterMap_keys_of_getEq b hb
    intro k v hget
    have han : mapGet a k = none := by
      apply mapGet_eq_none_of_not_mem
      exact hd k (mem_keys_of_mapGet_eq_some hget)
    rw [hget, han]
  rw [h1, h2]

/-- C7: on snapshots sharing no project ids, no archived-project ids and
no note ids, merge is commutative up to order: both merge directions
yield the same multiset of project entries, of archived entries and of
notes. -/
theorem c7_commutative_on_disjoint (A B : Snapshot)
    (hA : snapWF A) (hB : snapWF B)
    (hdp : ∀ k ∈ keys A.projects, k ∉ keys B.projects)
    (hda : ∀ k ∈ keys A.archivedProjects, k ∉ keys B.archivedProjects)
    (hdn : ∀ i ∈ (snapNotes A).map (·.id), i ∉ (snapNotes B).map (·.id)) :
    List.Perm (mergeCore A B).projects (mergeCore B A).projects
    ∧ List.Perm (mergeCore A B).archivedProjects
        (mergeCore B A).archivedProjects
    ∧ List.Perm (snapNotes (mergeCore A B))
        (snapNotes (mergeCore B A)) := by
  obtain ⟨_, _, ⟨hApk, _⟩, ⟨hAak, _⟩⟩ := hA
  obtain ⟨_, _, ⟨hBpk, _⟩, ⟨hBak, _⟩⟩ := hB
  have hdp2 : ∀ k ∈ keys B.projects, k ∉ keys A.projects :=
    fun k hkB hkA => hdp k hkA hkB
  have hda2 : ∀ k ∈ keys B.archivedProjects,
      k ∉ keys A.archivedProjects :=
    fun k hkB hkA => hda k hkA hkB
  have e1 : (mergeCore A B).projects = A.projects ++ B.projects :=
    mergeProjects_disjoint A.projects B.projects hApk hBpk hdp2
  have e2 : (mergeCore B A).projects = B.projects ++ A.projects :=
    mergeProjects_disjoint B.projects A.projects hBpk hApk hdp
  have e3 : (mergeCore A B).archivedProjects =
      A.archivedProjects ++ B.archivedProjects :=
    mergeProjects_disjoint A.archivedProjects B.archivedProjects
      hAak hBak hda2
  have e4 : (mergeCore B A).archivedProjects =
      B.archivedProjects ++ A.archivedProjects :=
    mergeProjects_disjoint B.archivedProjects A.archivedProjects
      hBak hAak hda
  refine ⟨?_, ?_, ?_⟩
  · rw [e1, e2]; exact List.perm_append_comm
  · rw [e3, e4]; exact List.perm_append_comm
  · unfold snapNotes
    rw [e1, e2, e3, e4]
    apply List.Perm.flatten
    apply List.Perm.map
    exact List.Perm.append List.perm_append_comm List.perm_append_comm

/-- Witness for C7 at concrete disjoint snapshots. -/
theorem c7_commutative_on_disjoint_witness :
    List.Perm (mergeCore snapA snapB).projects
      (mergeCore snapB snapA).projects
    ∧ List.Perm (mergeCore snapA snapB).archivedProjects
        (mergeCore snapB snapA).archivedProjects
    ∧ List.Perm (snapNotes (mergeCore snapA snapB))
        (snapNotes (mergeCore snapB snapA)) :=
  c7_commutative_on_disjoint snapA snapB (by decide) (by decide)
    (by decide) (by decide) (by decide)

/-- C5: merging with an absent remote returns the local snapshot
unchanged, and merging an absent local with a present remote returns the
remote snapshot unchanged (`mergeData` guards). -/
theorem c5_absent_side_identity (l r : Snapshot) :
    mergeData (some l) none = some l ∧
      mergeData none (some r) = some r :=
  ⟨rfl, rfl⟩

/-- C10: when both snapshots are present the merged snapshot carries
exactly the fields `version`, `projects`, `archivedProjects` (any other
top-level field of either input is dropped: `extra = []`), and its
version is the local version if truthy, else the remote version if
truthy, else `"1.0.0"`. -/
theorem c10_top_level_fields (l r : Snapshot) :
    mergeData (some l) (some r) = some (mergeCore l r) ∧
    (mergeCore l r).extra = [] ∧
    (mergeCore l r).version =
      (if l.version = "" then
        (if r.version = "" then "1.0.0" else r.version)
       else l.version) :=
  ⟨rfl, rfl, rfl⟩

/-- C2: when the first push fails with a conflict, `sync` performs
exactly one more pull-merge-push cycle (two pushes total, the second
with the freshly fetched sha) and returns the retry's merged snapshot
on success; if the retry's push conflicts or fails, that error is
surfaced, and no third attempt exists. -/
theorem c2_conflict_retry_once (env : StoreEnv) (l : Option Snapshot)
    (d1 : Snapshot) (s1 : String)
    (h1 : env.pull1 = .found d1 s1)
    (h2 : env.push1 = .conflict)
    (hs1 : s1 ≠ "") :
    syncRun env l =
      ((runAttempt env.pull2 env.push2 l).1,
        some s1 :: (runAttempt env.pull2 env.push2 l).2)
    ∧ ((runAttempt env.pull2 env.push2 l).1 =
        (match env.pull2 with
         | .err m => .error (.pullFail m)
         | .notFound =>
             (match env.push2 with
              | .ok => .ok (mergeData l none)
              | .conflict => .error SyncErr.conflict
              | .failure m => .error (.pushFail m))
         | .found d2 _ =>
             (match env.push2 with
              | .ok => .ok (mergeData l (some d2))
              | .conflict => .error SyncErr.conflict
              | .failure m => .error (.pushFail m)))) := by
  constructor
  · unfold syncRun
    rw [h1, h2]
    dsimp only [runAttempt, pushOutcome, pushBodySha]
    rw [if_neg hs1]
    rfl
  · cases env.pull2 with
    | err m => rfl
    | notFound =>
        dsimp only [runAttempt]
        cases env.push2 <;> rfl
    | found d2 s2 =>
        dsimp only [runAttempt]
        cases env.push2 <;> rfl

/-- Witness for C2: first push conflicts, retry succeeds; the result is
the merge with the re-fetched remote, with exactly two pushes, the
second carrying the freshly fetched sha. -/
theorem c2_conflict_retry_once_witness :
    syncRun envRetry (some snapA) =
      (.ok (mergeData (some snapA) (some snapB)),
        [some "sha1", some "sha2"]) := by
  have h := c2_conflict_retry_once envRetry (some snapA) snapB "sha1"
    rfl rfl (by decide)
  rw [h.1]
  rfl

/-- C8: a 404 on pull is returned as `absent` (`.ok none`), not an
error, and clears the held sha; the next push body then carries no
`sha` field, and (per the spec's store model) a write with no expected
token against an empty store creates the resource. -/
theorem c8_not_found_clears_token (cur : Option String) (d : Snapshot)
    (ns : String) :
    pullReturn .notFound = .ok none
    ∧ pullShaAfter .notFound cur = none
    ∧ pushBodySha (pullShaAfter .notFound cur) = none
    ∧ storeWrite none (pushBodySha (pullShaAfter .notFound cur)) d ns
        = .ok (some (ns, d)) :=
  ⟨rfl, rfl, rfl, rfl⟩

theorem litMatch_some : ∀ (ps cs rest : List Char),
    litMatch ps cs = some rest → cs = ps ++ rest := by
  intro ps
  induction ps with
  | nil =>
      intro cs rest h
      injection h with h2
  | cons p ps ih =>
      intro cs rest h
      cases cs with
      | nil => exact Option.noConfusion h
      | cons c cs' =>
          unfold litMatch at h
          by_cases hc : c = p
          · rw [if_pos hc] at h
            rw [List.cons_append, ← hc, ih cs' rest h]
          · rw [if_neg hc] at h
            exact Option.noConfusion h

theorem litMatch_self : ∀ (ps rest : List Char),
    litMatch ps (ps ++ rest) = some rest := by
  intro ps
  induction ps with
  | nil => intro rest; rfl
  | cons p ps ih =>
      intro rest
      show litMatch (p :: ps) (p :: (ps ++ rest)) = some rest
      unfold litMatch
      rw [if_pos rfl]
      exact ih rest

theorem takeWhile_middle (p : Char → Bool) :
    ∀ (o : List Char) (x : Char) (rest : List Char),
      (∀ c ∈ o, p c) → ¬ p x = true →
      (o ++ x :: rest).takeWhile p = o
        ∧ (o ++ x :: rest).dropWhile p = x :: rest := by
  intro o
  induction o with
  | nil =>
      intro x rest _ hx
      rw [List.nil_append]
      constructor
      · rw [List.takeWhile_cons, if_neg hx]
      · rw [List.dropWhile_cons, if_neg hx]
  | cons a o' ih =>
      intro x rest h hx
      have ha : p a := h a (List.mem_cons_self a o')
      have ih2 := ih x rest (fun c hc => h c (List.mem_cons_of_mem _ hc)) hx
      rw [List.cons_append]
      constructor
      · rw [List.takeWhile_cons, if_pos ha, ih2.1]
      · rw [List.dropWhile_cons, if_pos ha, ih2.2]

theorem tailMatch_isSome_iff (cs : List Char) :
    (tailMatch cs).isSome = true ↔
      ∃ o r suf, cs = o ++ '/' :: (r ++ suf) ∧ o ≠ [] ∧
        (∀ c ∈ o, c ≠ '/') ∧ r ≠ [] ∧
        (∀ c ∈ r, c ≠ '/' ∧ c ≠ '.') := by
  constructor
  · intro h
    unfold tailMatch at h
    dsimp only at h
    by_cases ho : (cs.takeWhile (fun c => c ≠ '/')).isEmpty
    · rw [if_pos ho] at h
      simp at h
    · rw [if_neg ho] at h
      cases hd : cs.dropWhile (fun c => c ≠ '/') with
      | nil => rw [hd] at h; simp at h
      | cons d rest =>
          rw [hd] at h
          dsimp only at h
          by_cases hdc : d = '/'
          · rw [if_pos hdc] at h
            by_cases hrep :
                (rest.takeWhile (fun c => c ≠ '/' ∧ c ≠ '.')).isEmpty
            · rw [if_pos hrep] at h; simp at h
            · refine ⟨cs.takeWhile (fun c => c ≠ '/'),
                rest.takeWhile (fun c => c ≠ '/' ∧ c ≠ '.'),
                rest.dropWhile (fun c => c ≠ '/' ∧ c ≠ '.'),
                ?_, ?_, ?_, ?_, ?_⟩
              · have hcs2 : cs =
                    cs.takeWhile (fun c => decide (c ≠ '/')) ++ '/' :: rest := by
                  conv_lhs => rw [← List.takeWhile_append_dropWhile
                    (fun c => decide (c ≠ '/')) cs]
                  rw [hd, hdc]
                rw [List.takeWhile_append_dropWhile]
                exact hcs2
              · intro he
                rw [← List.isEmpty_iff] at he
                exact ho he
              · intro c hc
                have := List.mem_takeWhile_imp hc
                simpa using this
              · intro he
                rw [← List.isEmpty_iff] at he
                exact hrep he
              · intro c hc
                have := List.mem_takeWhile_imp hc
                simpa using this
          · rw [if_neg hdc] at h
            simp at h
  · rintro ⟨o, r, suf, hcs, ho, hop, hr, hrp⟩
    subst hcs
    unfold tailMatch
    dsimp only
    have hmid := takeWhile_middle (fun c => decide (c ≠ '/')) o '/'
      (r ++ suf) (fun c hc => by simpa using hop c hc) (by simp)
    rw [hmid.1, hmid.2]
    rw [if_neg (by simpa [List.isEmpty_iff] using ho)]
    dsimp only
    rw [if_pos rfl]
    cases r with
    | nil => exact absurd rfl hr
    | cons rc r' =>
        have hq : (decide (rc ≠ '/' ∧ rc ≠ '.')) = true := by
          have := hrp rc (List.mem_cons_self rc r')
          simpa using this
        rw [List.cons_append, List.takeWhile_cons, if_pos hq]
        simp

theorem findRepo_isSome_iff : ∀ cs : List Char,
    (findRepo cs).isSome = true ↔
      ∃ pre o r suf, cs = pre ++ repoPat ++ o ++ '/' :: (r ++ suf)
        ∧ o ≠ [] ∧ (∀ c ∈ o, c ≠ '/') ∧ r ≠ [] ∧
        (∀ c ∈ r, c ≠ '/' ∧ c ≠ '.') := by
  intro cs
  induction cs with
  | nil =>
      constructor
      · intro h; simp [findRepo] at h
      · rintro ⟨pre, o, r, suf, hcs, _, _, _, _⟩
        have hlen := congrArg List.length hcs
        simp [repoPat] at hlen
        omega
  | cons c cs ih =>
      constructor
      · intro h
        unfold findRepo at h
        cases hlit : litMatch repoPat (c :: cs) with
        | some rest =>
            rw [hlit] at h
            dsimp only at h
            cases htm : tailMatch rest with
            | some r0 =>
                have hdecomp := litMatch_some repoPat (c :: cs) rest hlit
                have hiff := (tailMatch_isSome_iff rest).mp
                  (by rw [htm]; rfl)
                obtain ⟨o, r, suf, hrest, ho, hop, hr, hrp⟩ := hiff
                exact ⟨[], o, r, suf,
                  by rw [List.nil_append, hdecomp, hrest]
                     simp [List.append_assoc],
                  ho, hop, hr, hrp⟩
            | none =>
                rw [htm] at h
                dsimp only at h
                obtain ⟨pre, o, r, suf, hcs, ho, hop, hr, hrp⟩ := ih.mp h
                exact ⟨c :: pre, o, r, suf,
                  by rw [List.cons_append, hcs]
                     simp [List.append_assoc], ho, hop, hr, hrp⟩
        | none =>
            rw [hlit] at h
            dsimp only at h
            obtain ⟨pre, o, r, suf, hcs, ho, hop, hr, hrp⟩ := ih.mp h
            exact ⟨c :: pre, o, r, suf,
              by rw [List.cons_append, hcs]
                 simp [List.append_assoc], ho, hop, hr, hrp⟩
      · rintro ⟨pre, o, r, suf, hcs, ho, hop, hr, hrp⟩
        unfold findRepo
        cases hlit : litMatch repoPat (c :: cs) with
        | some rest =>
            dsimp only
            cases htm : tailMatch rest with
            | some r0 => rfl
            | none =>
                dsimp only
                apply ih.mpr
                cases pre with
                | nil =>
                    exfalso
                    rw [List.nil_append, List.append_assoc] at hcs
                    have h1 := litMatch_some repoPat (c :: cs) rest hlit
                    rw [hcs] at h1
                    have hrest : rest = o ++ '/' :: (r ++ suf) :=
                      (List.append_cancel_left h1).symm
                    have hsome : (tailMatch rest).isSome = true :=
                      (tailMatch_isSome_iff rest).mpr
                        ⟨o, r, suf, hrest, ho, hop, hr, hrp⟩
                    rw [htm] at hsome
                    simp at hsome
                | cons c' pre' =>
                    rw [List.cons_append] at hcs
                    injection hcs with hc hcs2
                    exact ⟨pre', o, r, suf, hcs2, ho, hop, hr, hrp⟩
        | none =>
            dsimp only
            apply ih.mpr
            cases pre with
            | nil =>
                exfalso
                rw [List.nil_append, List.append_assoc] at hcs
                have hself := litMatch_self repoPat (o ++ '/' :: (r ++ suf))
                rw [← hcs, hlit] at hself
                exact Option.noConfusion hself
            | cons c' pre' =>
                rw [List.cons_append] at hcs
                injection hcs with hc hcs2
                exact ⟨pre', o, r, suf, hcs2, ho, hop, hr, hrp⟩

/-- C9 counterexample: the spec says any URL of the shape
`https://<host>/<owner>/<repo>[.git]` parses, and only such URLs parse.
But `https://gitlab.com/owner/repo` has the spec's shape and is
rejected by `_parseRepo` (the regex demands the literal host
`github.com`), while `github.com/a/b` lacks the spec's shape (no
`https://` scheme) and is accepted. -/
theorem c9_spec_shape_counterexample :
    specUrlShape "https://gitlab.com/owner/repo" = true
    ∧ parseRepo "https://gitlab.com/owner/repo" =
        .error "Invalid GitHub repo URL: https://gitlab.com/owner/repo"
    ∧ specUrlShape "github.com/a/b" = false
    ∧ parseRepo "github.com/a/b" = .ok ("a", "b") :=
  ⟨by decide, rfl, by decide, rfl⟩

/-- C9 (amended): `_parseRepo` succeeds exactly when the URL contains a
substring `github.com/` followed by a nonempty `/`-free owner run, a
`/`, and at least one character that is neither `/` nor `.` (the first
such occurrence supplies owner and repo, the repo run being cut at the
first `/` or `.`); otherwise it throws the configuration error. -/
theorem c9_parse_iff_github_segment (url : String) :
    (parseRepo url).isOk = true ↔
      ∃ pre o r suf,
        url.data = pre ++ repoPat ++ o ++ '/' :: (r ++ suf)
        ∧ o ≠ [] ∧ (∀ c ∈ o, c ≠ '/') ∧ r ≠ [] ∧
        (∀ c ∈ r, c ≠ '/' ∧ c ≠ '.') := by
  rw [← findRepo_isSome_iff url.data]
  unfold parseRepo
  cases findRepo url.data with
  | some r => simp [Except.isOk, Except.toBool]
  | none => simp [Except.isOk, Except.toBool]

end QuickNotes
